import Mathlib

/-!
Shallow embedding of the single-tape Turing machine interpreter
(`src/src/lib.rs`).

The Rust `VecDeque<M>` tape is modelled as a `List M` (`push_front` is
`List.cons`, `push_back` is append of a singleton).  The `HashSet`s are
modelled as `List`s with decidable membership; only emptiness and
membership are ever queried.  The boxed transition closure is a Lean
function `M → T → M × Movement × T`.

Partiality is made explicit: `step` returns `none` exactly when the Rust
code would panic on an out-of-bounds tape index (`self.tape[self.head]`),
and the potentially nonterminating loops of `run` are given an explicit
fuel parameter, returning `none` when the fuel is exhausted.
-/

set_option autoImplicit false

namespace TMSpec

/-- Movement of the head, mirroring the Rust `enum Movement`. -/
inductive Movement : Type where
  | Left : Movement
  | Right : Movement
deriving DecidableEq

/-- The `TuringMachine` struct: machine description plus the
implementation-specific runtime fields `head`, `tape`, `current_state`. -/
structure TuringMachine (M T : Type) where
  state_set : List T
  symbol_set : List M
  blank_symbol : M
  transition : M → T → M × Movement × T
  initial_state : T
  final_state_set : List T
  head : Nat
  tape : List M
  current_state : T

variable {M T : Type}

/-- `TuringMachine::new`: the four `assert!`s become `none` results; on
success `head = 0` (Rust `Default::default()`) and
`current_state = initial_state`. -/
def TuringMachine.new [DecidableEq M] [DecidableEq T]
    (state_set : List T) (symbol_set : List M) (blank_symbol : M)
    (initial_state : T) (final_state_set : List T)
    (transition : M → T → M × Movement × T) (tape : List M) :
    Option (TuringMachine M T) :=
  if state_set.isEmpty then none
  else if initial_state ∉ state_set then none
  else if symbol_set.isEmpty then none
  else if blank_symbol ∉ symbol_set then none
  else some {
    state_set := state_set
    symbol_set := symbol_set
    blank_symbol := blank_symbol
    transition := transition
    initial_state := initial_state
    final_state_set := final_state_set
    head := 0
    tape := tape
    current_state := initial_state }

/-- `TuringMachine::step`: returns `some (b, m)` where `b` is the Rust
boolean return value and `m` the mutated machine; `none` models the
out-of-bounds panic of `self.tape[self.head]`. -/
def TuringMachine.step [DecidableEq T] (m : TuringMachine M T) :
    Option (Bool × TuringMachine M T) :=
  if m.current_state ∈ m.final_state_set then
    some (false, m)
  else
    match m.tape[m.head]? with
    | none => none
    | some sym =>
      match m.transition sym m.current_state with
      | (w, mv, t) =>
        match mv with
        | Movement.Left =>
          if m.head = 0 then
            some (true, { m with current_state := t,
                                 tape := m.blank_symbol :: m.tape.set m.head w })
          else
            some (true, { m with current_state := t,
                                 tape := m.tape.set m.head w,
                                 head := m.head - 1 })
        | Movement.Right =>
          if (m.tape.set m.head w).length ≤ m.head + 1 then
            some (true, { m with current_state := t,
                                 tape := m.tape.set m.head w ++ [m.blank_symbol],
                                 head := m.head + 1 })
          else
            some (true, { m with current_state := t,
                                 tape := m.tape.set m.head w,
                                 head := m.head + 1 })

/-- Iterate `step` a fixed number of times, discarding the boolean results;
`none` if any step panics. -/
def TuringMachine.stepIter [DecidableEq T] :
    Nat → TuringMachine M T → Option (TuringMachine M T)
  | 0, m => some m
  | n + 1, m =>
    match m.step with
    | none => none
    | some p => TuringMachine.stepIter n p.2

/-- Number of cells prepended on the left by the next `step` (0 or 1):
the left extension shifts every existing cell index up by one. -/
def TuringMachine.stepShift [DecidableEq T] (m : TuringMachine M T) : Nat :=
  if m.current_state ∈ m.final_state_set then 0
  else
    match m.tape[m.head]? with
    | none => 0
    | some sym =>
      match m.transition sym m.current_state with
      | (_, mv, _) =>
        match mv with
        | Movement.Left => if m.head = 0 then 1 else 0
        | Movement.Right => 0

/-- Iterate `step` while accumulating the total left shift, so that a cell
at index `p` before the iteration sits at index `p + shift` afterwards. -/
def TuringMachine.stepIterS [DecidableEq T] :
    Nat → TuringMachine M T → Option (TuringMachine M T × Nat)
  | 0, m => some (m, 0)
  | n + 1, m =>
    match m.step with
    | none => none
    | some p =>
      (TuringMachine.stepIterS n p.2).map fun q => (q.1, m.stepShift + q.2)

/-- The first loop of `run`: `while self.step() {}`.  Returns the number of
transitions performed and the machine at the moment `step` first returned
`false`; `none` on panic or fuel exhaustion. -/
def TuringMachine.runLoop1 [DecidableEq T] :
    Nat → TuringMachine M T → Option (Nat × TuringMachine M T)
  | 0, _ => none
  | f + 1, m =>
    match m.step with
    | none => none
    | some (false, m1) => some (0, m1)
    | some (true, m1) =>
      (TuringMachine.runLoop1 f m1).map fun p => (p.1 + 1, p.2)

/-- The second loop of `run`:
`while !self.final_state_set.contains(&self.current_state) { self.step(); }`. -/
def TuringMachine.runLoop2 [DecidableEq T] :
    Nat → TuringMachine M T → Option (TuringMachine M T)
  | 0, m =>
    if m.current_state ∈ m.final_state_set then some m else none
  | f + 1, m =>
    if m.current_state ∈ m.final_state_set then some m
    else
      match m.step with
      | none => none
      | some p => TuringMachine.runLoop2 f p.2

/-- `TuringMachine::run`: both loops in sequence, then `self.tape.clone()`.
Returns the number of transitions performed, the returned tape copy, and the
machine (`self`) as left behind. -/
def TuringMachine.run [DecidableEq T] (fuel : Nat) (m : TuringMachine M T) :
    Option (Nat × List M × TuringMachine M T) :=
  match TuringMachine.runLoop1 fuel m with
  | none => none
  | some (n, m1) =>
    match TuringMachine.runLoop2 fuel m1 with
    | none => none
    | some m2 => some (n, m2.tape, m2)

/-! Concrete 2-state busy-beaver-style scenario from the specification:
states A, B, H; symbols 0, 1; blank 0; initial state A; final set containing
only H; initial tape with the single cell 0. -/

/-- The control states of the concrete scenario. -/
inductive BBState : Type where
  | A : BBState
  | B : BBState
  | H : BBState
deriving DecidableEq

/-- The transition table of the concrete scenario. -/
def bbTransition : Nat → BBState → Nat × Movement × BBState
  | 0, BBState.A => (1, Movement.Right, BBState.B)
  | 1, BBState.A => (1, Movement.Left, BBState.H)
  | 0, BBState.B => (1, Movement.Left, BBState.A)
  | 1, BBState.B => (1, Movement.Right, BBState.B)
  | _, s => (0, Movement.Left, s)

/-- The freshly constructed machine of the concrete scenario. -/
def bbMachine : TuringMachine Nat BBState :=
  { state_set := [BBState.A, BBState.B, BBState.H]
    symbol_set := [0, 1]
    blank_symbol := 0
    transition := bbTransition
    initial_state := BBState.A
    final_state_set := [BBState.H]
    head := 0
    tape := [0]
    current_state := BBState.A }

/-- The scenario machine after the first transition. -/
def bbM1 : TuringMachine Nat BBState :=
  { bbMachine with tape := [1, 0], head := 1, current_state := BBState.B }

/-- The scenario machine after the second transition. -/
def bbM2 : TuringMachine Nat BBState :=
  { bbMachine with tape := [1, 1], head := 0, current_state := BBState.A }

/-- The scenario machine after the third transition (halted in H). -/
def bbM3 : TuringMachine Nat BBState :=
  { bbMachine with tape := [0, 1, 1], head := 0, current_state := BBState.H }

/-- A halted machine whose tape is empty: its state is the final state H,
so `step` must return `false` without ever touching the (empty) tape. -/
def haltedEmpty : TuringMachine Nat BBState :=
  { bbMachine with tape := [], current_state := BBState.H }

/-! Basic lemmas about `step`. -/

namespace TuringMachine

variable {M T : Type} [DecidableEq T]

/-- A machine in a final state performs no work: `step` returns `false` and
leaves the machine untouched. -/
theorem step_of_final {m : TuringMachine M T}
    (h : m.current_state ∈ m.final_state_set) : m.step = some (false, m) := by
  simp [TuringMachine.step, h]

/-- A machine in a final state has no left shift. -/
theorem stepShift_of_final {m : TuringMachine M T}
    (h : m.current_state ∈ m.final_state_set) : m.stepShift = 0 := by
  simp [TuringMachine.stepShift, h]

/-- Exhaustive case description of a `step` that did not panic: either the
state was final and nothing happened, or exactly one of the four
write-and-move outcomes occurred. -/
theorem step_cases {m m' : TuringMachine M T} {b : Bool}
    (h : m.step = some (b, m')) :
    (b = false ∧ m' = m ∧ m.current_state ∈ m.final_state_set) ∨
    (b = true ∧ m.current_state ∉ m.final_state_set ∧ m.head < m.tape.length ∧
      ∃ sym w mv t, m.tape[m.head]? = some sym ∧
        m.transition sym m.current_state = (w, mv, t) ∧
        ((mv = Movement.Left ∧ m.head = 0 ∧
            m' = { m with current_state := t,
                          tape := m.blank_symbol :: m.tape.set m.head w }) ∨
         (mv = Movement.Left ∧ 0 < m.head ∧
            m' = { m with current_state := t,
                          tape := m.tape.set m.head w,
                          head := m.head - 1 }) ∨
         (mv = Movement.Right ∧ m.head + 1 = m.tape.length ∧
            m' = { m with current_state := t,
                          tape := m.tape.set m.head w ++ [m.blank_symbol],
                          head := m.head + 1 }) ∨
         (mv = Movement.Right ∧ m.head + 1 < m.tape.length ∧
            m' = { m with current_state := t,
                          tape := m.tape.set m.head w,
                          head := m.head + 1 }))) := by
  by_cases hf : m.current_state ∈ m.final_state_set
  · rw [step_of_final hf] at h
    obtain ⟨hb, hm⟩ : false = b ∧ m = m' := by simpa using h
    exact Or.inl ⟨hb.symm, hm.symm, hf⟩
  · right
    rcases hg : m.tape[m.head]? with _ | sym
    · exfalso
      rw [TuringMachine.step, if_neg hf, hg] at h
      cases h
    · have hlt : m.head < m.tape.length := by
        rcases List.getElem?_eq_some_iff.1 hg with ⟨h1, _⟩
        exact h1
      rcases htr : m.transition sym m.current_state with ⟨w, mv, t⟩
      cases mv with
      | Left =>
        by_cases h0 : m.head = 0
        · rw [TuringMachine.step, if_neg hf, hg] at h
          simp only [htr, if_pos h0, Option.some.injEq, Prod.mk.injEq] at h
          exact ⟨h.1.symm, hf, hlt, sym, w, Movement.Left, t, rfl, htr,
            Or.inl ⟨rfl, h0, h.2.symm⟩⟩
        · rw [TuringMachine.step, if_neg hf, hg] at h
          simp only [htr, if_neg h0, Option.some.injEq, Prod.mk.injEq] at h
          exact ⟨h.1.symm, hf, hlt, sym, w, Movement.Left, t, rfl, htr,
            Or.inr (Or.inl ⟨rfl, Nat.pos_of_ne_zero h0, h.2.symm⟩)⟩
      | Right =>
        by_cases hext : (m.tape.set m.head w).length ≤ m.head + 1
        · rw [TuringMachine.step, if_neg hf, hg] at h
          simp only [htr, if_pos hext, Option.some.injEq, Prod.mk.injEq] at h
          have hlen : m.head + 1 = m.tape.length := by
            rw [List.length_set] at hext
            omega
          exact ⟨h.1.symm, hf, hlt, sym, w, Movement.Right, t, rfl, htr,
            Or.inr (Or.inr (Or.inl ⟨rfl, hlen, h.2.symm⟩))⟩
        · rw [TuringMachine.step, if_neg hf, hg] at h
          simp only [htr, if_neg hext, Option.some.injEq, Prod.mk.injEq] at h
          have hlen : m.head + 1 < m.tape.length := by
            rw [List.length_set] at hext
            omega
          exact ⟨h.1.symm, hf, hlt, sym, w, Movement.Right, t, rfl, htr,
            Or.inr (Or.inr (Or.inr ⟨rfl, hlen, h.2.symm⟩))⟩

/-- A `step` that returned `false` left the machine untouched, and the
state was final; the tape was not read and the transition not consulted. -/
theorem step_false {m m' : TuringMachine M T}
    (h : m.step = some (false, m')) :
    m' = m ∧ m.current_state ∈ m.final_state_set := by
  rcases step_cases h with ⟨_, h1, h2⟩ | ⟨hb, _⟩
  · exact ⟨h1, h2⟩
  · cases hb

/-- Value of `stepShift` for a non-halted machine with a readable head
cell, in terms of the transition result. -/
theorem stepShift_eq {m : TuringMachine M T} {sym w : M} {mv : Movement}
    {t : T} (hf : m.current_state ∉ m.final_state_set)
    (hg : m.tape[m.head]? = some sym)
    (htr : m.transition sym m.current_state = (w, mv, t)) :
    m.stepShift =
      if mv = Movement.Left then (if m.head = 0 then 1 else 0) else 0 := by
  rw [TuringMachine.stepShift, if_neg hf, hg]
  simp only [htr]
  cases mv <;> simp

/-- Per-step resource bound: one step grows the tape by at most one cell
and moves the logical head position by at most one. -/
theorem step_bounds {m m' : TuringMachine M T} {b : Bool}
    (h : m.step = some (b, m')) :
    m'.tape.length ≤ m.tape.length + 1 ∧
    ((m'.head : Int) - m.stepShift - m.head).natAbs ≤ 1 := by
  rcases step_cases h with ⟨_, rfl, hf⟩ | ⟨_, hf, hlt, sym, w, mv, t, hg, htr, hc⟩
  · rw [stepShift_of_final hf]
    simp
  · have hs := stepShift_eq hf hg htr
    rcases hc with ⟨hmv, h0, rfl⟩ | ⟨hmv, h0, rfl⟩ | ⟨hmv, h0, rfl⟩ | ⟨hmv, h0, rfl⟩ <;>
      subst hmv
    · have hs1 : m.stepShift = 1 := by simp [h0] at hs; exact hs
      refine ⟨?_, ?_⟩ <;> simp [hs1, List.length_set]
    · have hs0 : m.stepShift = 0 := by simp [h0.ne'] at hs; exact hs
      refine ⟨?_, ?_⟩ <;> simp [hs0, List.length_set]
      omega
    · have hs0 : m.stepShift = 0 := by simp at hs; exact hs
      refine ⟨?_, ?_⟩ <;> simp [hs0, List.length_set]
    · have hs0 : m.stepShift = 0 := by simp at hs; exact hs
      refine ⟨?_, ?_⟩ <;> simp [hs0, List.length_set]

/-- Frame property of one step: a cell away from the head keeps its value
(at its shifted index) and stays within the tape. -/
theorem step_frame {m m' : TuringMachine M T} {b : Bool}
    (h : m.step = some (b, m')) {p : Nat} (hp : p ≠ m.head)
    (hlen : p < m.tape.length) :
    m'.tape[p + m.stepShift]? = m.tape[p]? ∧
    p + m.stepShift < m'.tape.length := by
  rcases step_cases h with ⟨_, rfl, hf⟩ | ⟨_, hf, hlt, sym, w, mv, t, hg, htr, hc⟩
  · rw [stepShift_of_final hf]
    simpa using hlen
  · have hs := stepShift_eq hf hg htr
    rcases hc with ⟨hmv, h0, rfl⟩ | ⟨hmv, h0, rfl⟩ | ⟨hmv, h0, rfl⟩ | ⟨hmv, h0, rfl⟩ <;>
      subst hmv
    · have hs1 : m.stepShift = 1 := by simp [h0] at hs; exact hs
      rw [hs1]
      refine ⟨?_, ?_⟩
      · show (m.blank_symbol :: m.tape.set m.head w)[p + 1]? = m.tape[p]?
        rw [List.getElem?_cons_succ, List.getElem?_set_ne (Ne.symm hp)]
      · show p + 1 < (m.blank_symbol :: m.tape.set m.head w).length
        simp only [List.length_cons, List.length_set]
        omega
    · have hs0 : m.stepShift = 0 := by simp [h0.ne'] at hs; exact hs
      rw [hs0]
      refine ⟨?_, ?_⟩
      · show (m.tape.set m.head w)[p + 0]? = m.tape[p]?
        rw [Nat.add_zero, List.getElem?_set_ne (Ne.symm hp)]
      · show p + 0 < (m.tape.set m.head w).length
        simp only [List.length_set]
        omega
    · have hs0 : m.stepShift = 0 := by simp at hs; exact hs
      rw [hs0]
      have hp2 : p < (m.tape.set m.head w).length := by
        simp only [List.length_set]
        exact hlen
      refine ⟨?_, ?_⟩
      · show (m.tape.set m.head w ++ [m.blank_symbol])[p + 0]? = m.tape[p]?
        rw [Nat.add_zero, List.getElem?_append_left hp2,
          List.getElem?_set_ne (Ne.symm hp)]
      · show p + 0 < (m.tape.set m.head w ++ [m.blank_symbol]).length
        simp only [List.length_append, List.length_set, List.length_cons,
          List.length_nil]
        omega
    · have hs0 : m.stepShift = 0 := by simp at hs; exact hs
      rw [hs0]
      refine ⟨?_, ?_⟩
      · show (m.tape.set m.head w)[p + 0]? = m.tape[p]?
        rw [Nat.add_zero, List.getElem?_set_ne (Ne.symm hp)]
      · show p + 0 < (m.tape.set m.head w).length
        simp only [List.length_set]
        omega

/-- With the head in bounds, `step` cannot panic. -/
theorem step_isSome_of_inbounds {m : TuringMachine M T}
    (h : m.head < m.tape.length) : ∃ r, m.step = some r := by
  by_cases hf : m.current_state ∈ m.final_state_set
  · exact ⟨(false, m), step_of_final hf⟩
  · rw [TuringMachine.step, if_neg hf, List.getElem?_eq_getElem h]
    rcases htr : m.transition m.tape[m.head] m.current_state with ⟨w, mv, t⟩
    simp only [htr]
    cases mv <;> dsimp only <;> split <;> exact ⟨_, rfl⟩

/-- A step taken from an in-bounds head leaves the head in bounds. -/
theorem step_preserves_inbounds {m m' : TuringMachine M T} {b : Bool}
    (h : m.step = some (b, m')) (hm : m.head < m.tape.length) :
    m'.head < m'.tape.length := by
  rcases step_cases h with ⟨_, rfl, _⟩ | ⟨_, _, hlt, sym, w, mv, t, hg, htr, hc⟩
  · exact hm
  · rcases hc with ⟨_, h0, rfl⟩ | ⟨_, h0, rfl⟩ | ⟨_, h0, rfl⟩ | ⟨_, h0, rfl⟩ <;>
      simp [List.length_set] <;> omega

/-- A halted machine is a fixed point of any number of iterated steps. -/
theorem stepIter_of_final {m : TuringMachine M T}
    (h : m.current_state ∈ m.final_state_set) :
    ∀ n, m.stepIter n = some m := by
  intro n
  induction n with
  | zero => rfl
  | succ n ih =>
    simp only [TuringMachine.stepIter, step_of_final h]
    exact ih

/-- Iterated stepping from an in-bounds head never panics and keeps the
head in bounds. -/
theorem stepIter_inbounds :
    ∀ (n : Nat) (m : TuringMachine M T), m.head < m.tape.length →
      ∃ m', m.stepIter n = some m' ∧ m'.head < m'.tape.length := by
  intro n
  induction n with
  | zero => intro m hm; exact ⟨m, rfl, hm⟩
  | succ n ih =>
    intro m hm
    obtain ⟨⟨b, m1⟩, hs⟩ := step_isSome_of_inbounds hm
    obtain ⟨m', hiter, hm'⟩ := ih m1 (step_preserves_inbounds hs hm)
    refine ⟨m', ?_, hm'⟩
    simp only [TuringMachine.stepIter, hs]
    exact hiter

/-- Unfolding of `stepIterS` over a successful first step. -/
theorem stepIterS_succ_of_step {m m1 : TuringMachine M T} {b : Bool}
    (hs : m.step = some (b, m1)) (n : Nat) :
    m.stepIterS (n + 1) =
      (m1.stepIterS n).map fun q => (q.1, m.stepShift + q.2) := by
  simp [TuringMachine.stepIterS, hs]

/-- Tape growth and logical head displacement over an iterated run are
bounded by the number of steps. -/
theorem stepIterS_bounds :
    ∀ (n : Nat) (m m' : TuringMachine M T) (s : Nat),
      m.stepIterS n = some (m', s) →
      m'.tape.length ≤ m.tape.length + n ∧
      ((m'.head : Int) - s - m.head).natAbs ≤ n := by
  intro n
  induction n with
  | zero =>
    intro m m' s h
    obtain ⟨rfl, rfl⟩ : m = m' ∧ 0 = s := by
      simpa [TuringMachine.stepIterS] using h
    simp
  | succ n ih =>
    intro m m' s h
    rcases hs : m.step with _ | ⟨b, m1⟩
    · simp [TuringMachine.stepIterS, hs] at h
    · rw [stepIterS_succ_of_step hs] at h
      rcases hrec : m1.stepIterS n with _ | ⟨m2, s2⟩
      · simp [hrec] at h
      · simp only [hrec, Option.map_some'] at h
        obtain ⟨rfl, rfl⟩ : m2 = m' ∧ m.stepShift + s2 = s := by simpa using h
        have hb := step_bounds hs
        have hih := ih m1 m2 s2 hrec
        constructor
        · omega
        · omega

/-- A cell that no intermediate head position ever touches keeps its value
through any iterated run, at its shifted index. -/
theorem cell_persists :
    ∀ (n : Nat) (m m' : TuringMachine M T) (s p : Nat) (v : M),
      m.stepIterS n = some (m', s) →
      m.tape[p]? = some v →
      (∀ k, k < n → ∀ mk sk, m.stepIterS k = some (mk, sk) →
        mk.head ≠ p + sk) →
      m'.tape[p + s]? = some v := by
  intro n
  induction n with
  | zero =>
    intro m m' s p v h hv _
    obtain ⟨rfl, rfl⟩ : m = m' ∧ 0 = s := by
      simpa [TuringMachine.stepIterS] using h
    simpa using hv
  | succ n ih =>
    intro m m' s p v h hv havoid
    rcases hs : m.step with _ | ⟨b, m1⟩
    · simp [TuringMachine.stepIterS, hs] at h
    · rw [stepIterS_succ_of_step hs] at h
      rcases hrec : m1.stepIterS n with _ | ⟨m2, s2⟩
      · simp [hrec] at h
      · simp only [hrec, Option.map_some'] at h
        obtain ⟨rfl, rfl⟩ : m2 = m' ∧ m.stepShift + s2 = s := by simpa using h
        have hlen : p < m.tape.length := by
          rcases List.getElem?_eq_some_iff.1 hv with ⟨h1, _⟩
          exact h1
        have hne : m.head ≠ p := by
          have h0 := havoid 0 (by omega) m 0 rfl
          simpa using h0
        have hframe := step_frame hs (Ne.symm hne) hlen
        have havoid2 : ∀ k, k < n → ∀ mk sk, m1.stepIterS k = some (mk, sk) →
            mk.head ≠ (p + m.stepShift) + sk := by
          intro k hk mk sk hks
          have hfull := havoid (k + 1) (by omega) mk (m.stepShift + sk) (by
            rw [stepIterS_succ_of_step hs, hks]
            rfl)
          intro he
          exact hfull (by omega)
        have hmain := ih m1 m2 s2 (p + m.stepShift) v hrec
          (hframe.1.trans hv) havoid2
        rw [← Nat.add_assoc]
        exact hmain

/-- When the first loop of `run` exits, the machine is in a final state:
`step` only returns `false` on a final state and leaves the machine as is. -/
theorem runLoop1_final :
    ∀ (f : Nat) (m : TuringMachine M T) (n : Nat) (m1 : TuringMachine M T),
      TuringMachine.runLoop1 f m = some (n, m1) →
      m1.current_state ∈ m1.final_state_set := by
  intro f
  induction f with
  | zero => intro m n m1 h; cases h
  | succ f ih =>
    intro m n m1 h
    rcases hs : m.step with _ | ⟨b, m2⟩
    · simp [TuringMachine.runLoop1, hs] at h
    · cases b
      · simp only [TuringMachine.runLoop1, hs] at h
        obtain ⟨_, rfl⟩ : 0 = n ∧ m2 = m1 := by simpa using h
        obtain ⟨rfl, hfin⟩ := step_false hs
        exact hfin
      · simp only [TuringMachine.runLoop1, hs] at h
        rcases hr : TuringMachine.runLoop1 f m2 with _ | r1
        · simp [hr] at h
        · obtain ⟨hn, hm⟩ : r1.1 + 1 = n ∧ r1.2 = m1 := by
            rw [hr] at h
            simpa using h
          exact hm ▸ ih m2 r1.1 r1.2 hr

/-- The second loop of `run` performs zero iterations on a machine already
in a final state, with any fuel. -/
theorem runLoop2_of_final {m : TuringMachine M T}
    (h : m.current_state ∈ m.final_state_set) :
    ∀ f, m.runLoop2 f = some m := by
  intro f
  cases f <;> simp [TuringMachine.runLoop2, h]

/-- `run` is fully determined by its first loop: the machine the first loop
ends with is returned unchanged together with a copy of its tape. -/
theorem run_eq_loop1 (fuel : Nat) (m : TuringMachine M T) :
    m.run fuel =
      (TuringMachine.runLoop1 fuel m).map fun p => (p.1, p.2.tape, p.2) := by
  rcases hr : TuringMachine.runLoop1 fuel m with _ | ⟨n, m1⟩
  · simp [TuringMachine.run, hr]
  · have hf := runLoop1_final fuel m n m1 hr
    simp [TuringMachine.run, hr, runLoop2_of_final hf]

/-- The first loop of `run` is monotone in the fuel: a result reached with
little fuel is reached with more. -/
theorem runLoop1_mono :
    ∀ (f1 f2 : Nat) (m : TuringMachine M T) (r : Nat × TuringMachine M T),
      TuringMachine.runLoop1 f1 m = some r → f1 ≤ f2 →
      TuringMachine.runLoop1 f2 m = some r := by
  intro f1
  induction f1 with
  | zero => intro f2 m r h; cases h
  | succ f1 ih =>
    intro f2 m r h hle
    obtain ⟨f2, rfl⟩ : ∃ k, f2 = k + 1 := ⟨f2 - 1, by omega⟩
    rcases hs : m.step with _ | ⟨b, m1⟩
    · simp [TuringMachine.runLoop1, hs] at h
    · cases b
      · simp only [TuringMachine.runLoop1, hs] at h ⊢
        exact h
      · simp only [TuringMachine.runLoop1, hs] at h ⊢
        rcases hr : TuringMachine.runLoop1 f1 m1 with _ | r1
        · simp [hr] at h
        · rw [ih f2 m1 r1 hr (by omega)]
          simpa [hr] using h

/-! The claims. -/

/-- C1: for a machine whose current state is not final and whose head is a
valid tape index, `step` reads the symbol under the head, consults
`transition` to obtain `(new_symbol, movement, new_state)`, sets the state,
writes the new symbol at the head, and applies the movement: on `Left` with
`head = 0` it prepends one blank and the head stays 0, otherwise the head
decreases by one; on `Right` the head increases by one and, if it then
equals the tape length, one blank is appended; the step returns `true`. -/
theorem claim1_step_transition {m : TuringMachine M T} {sym w : M}
    {mv : Movement} {t : T}
    (hf : m.current_state ∉ m.final_state_set)
    (hg : m.tape[m.head]? = some sym)
    (htr : m.transition sym m.current_state = (w, mv, t)) :
    (mv = Movement.Left → m.head = 0 →
      m.step = some (true,
        { m with current_state := t,
                 tape := m.blank_symbol :: m.tape.set m.head w })) ∧
    (mv = Movement.Left → 0 < m.head →
      m.step = some (true,
        { m with current_state := t,
                 tape := m.tape.set m.head w,
                 head := m.head - 1 })) ∧
    (mv = Movement.Right → m.head + 1 = m.tape.length →
      m.step = some (true,
        { m with current_state := t,
                 tape := m.tape.set m.head w ++ [m.blank_symbol],
                 head := m.head + 1 })) ∧
    (mv = Movement.Right → m.head + 1 < m.tape.length →
      m.step = some (true,
        { m with current_state := t,
                 tape := m.tape.set m.head w,
                 head := m.head + 1 })) := by
  refine ⟨?_, ?_, ?_, ?_⟩ <;> intro hmv hcond <;> subst hmv <;>
    rw [TuringMachine.step, if_neg hf, hg] <;> simp only [htr]
  · rw [if_pos hcond]
  · rw [if_neg (by omega)]
  · rw [if_pos (by simp only [List.length_set]; omega)]
  · rw [if_neg (by simp only [List.length_set]; omega)]

/-- Witness for C1, at the first transition of the concrete scenario
(movement `Right` with the incremented head reaching the tape length). -/
theorem claim1_step_transition_witness :
    bbMachine.step = some (true,
      { bbMachine with
          current_state := BBState.B,
          tape := bbMachine.tape.set bbMachine.head 1 ++
            [bbMachine.blank_symbol],
          head := bbMachine.head + 1 }) := by
  have h := @claim1_step_transition Nat BBState _ bbMachine 0 1
    Movement.Right BBState.B (by decide) rfl rfl
  exact h.2.2.1 rfl rfl

/-- C2: construction fails, returning no instance, exactly when the state
set is empty, or it misses the initial state, or the symbol set is empty,
or it misses the blank symbol; on success the machine starts with
`current_state = initial_state`, `head = 0` and the caller-supplied tape. -/
theorem claim2_construction [DecidableEq M] (Q : List T) (G : List M)
    (b : M) (q0 : T) (F : List T) (d : M → T → M × Movement × T)
    (tp : List M) :
    (TuringMachine.new Q G b q0 F d tp = none ↔
      Q = [] ∨ q0 ∉ Q ∨ G = [] ∨ b ∉ G) ∧
    (∀ m, TuringMachine.new Q G b q0 F d tp = some m →
      m.current_state = q0 ∧ m.head = 0 ∧ m.tape = tp) := by
  constructor
  · constructor
    · intro h
      unfold TuringMachine.new at h
      split at h
      · next hq => exact Or.inl (List.isEmpty_iff.1 hq)
      · split at h
        · next hq0 => exact Or.inr (Or.inl hq0)
        · split at h
          · next hg => exact Or.inr (Or.inr (Or.inl (List.isEmpty_iff.1 hg)))
          · split at h
            · next hb => exact Or.inr (Or.inr (Or.inr hb))
            · cases h
    · intro h
      rcases h with h | h | h | h
      · rw [TuringMachine.new, if_pos (List.isEmpty_iff.2 h)]
      · by_cases hq : Q.isEmpty
        · rw [TuringMachine.new, if_pos hq]
        · rw [TuringMachine.new, if_neg hq, if_pos h]
      · by_cases hq : Q.isEmpty
        · rw [TuringMachine.new, if_pos hq]
        · by_cases hq0 : q0 ∉ Q
          · rw [TuringMachine.new, if_neg hq, if_pos hq0]
          · rw [TuringMachine.new, if_neg hq, if_neg hq0,
              if_pos (List.isEmpty_iff.2 h)]
      · by_cases hq : Q.isEmpty
        · rw [TuringMachine.new, if_pos hq]
        · by_cases hq0 : q0 ∉ Q
          · rw [TuringMachine.new, if_neg hq, if_pos hq0]
          · by_cases hg : G.isEmpty
            · rw [TuringMachine.new, if_neg hq, if_neg hq0, if_pos hg]
            · rw [TuringMachine.new, if_neg hq, if_neg hq0, if_neg hg,
                if_pos h]
  · intro m h
    unfold TuringMachine.new at h
    split at h
    · cases h
    · split at h
      · cases h
      · split at h
        · cases h
        · split at h
          · cases h
          · injection h with h2
            subst h2
            exact ⟨rfl, rfl, rfl⟩

/-- Witness for C2, on the concrete scenario arguments (construction
succeeds and yields `bbMachine`). -/
theorem claim2_construction_witness :
    (TuringMachine.new [BBState.A, BBState.B, BBState.H] [0, 1] 0 BBState.A
        [BBState.H] bbTransition [0] = none ↔
      [BBState.A, BBState.B, BBState.H] = ([] : List BBState) ∨
      BBState.A ∉ [BBState.A, BBState.B, BBState.H] ∨
      ([0, 1] : List Nat) = [] ∨ (0 : Nat) ∉ ([0, 1] : List Nat)) ∧
    (bbMachine.current_state = BBState.A ∧ bbMachine.head = 0 ∧
      bbMachine.tape = [0]) :=
  ⟨(claim2_construction [BBState.A, BBState.B, BBState.H] [0, 1] 0 BBState.A
      [BBState.H] bbTransition [0]).1,
   (claim2_construction [BBState.A, BBState.B, BBState.H] [0, 1] 0 BBState.A
      [BBState.H] bbTransition [0]).2 bbMachine rfl⟩

/-- C3: a machine whose current state is final returns `false` from `step`
without mutating anything, and any number of repeated `step` calls leaves
the machine (tape, head and state alike) exactly as it was. -/
theorem claim3_halted (m : TuringMachine M T)
    (h : m.current_state ∈ m.final_state_set) :
    m.step = some (false, m) ∧ ∀ n, m.stepIter n = some m :=
  ⟨step_of_final h, stepIter_of_final h⟩

/-- Witness for C3, on a halted machine with an empty tape: `step` succeeds
without reading the tape (a read would be out of bounds and yield `none`). -/
theorem claim3_halted_witness :
    haltedEmpty.step = some (false, haltedEmpty) ∧
    haltedEmpty.stepIter 7 = some haltedEmpty :=
  ⟨(claim3_halted haltedEmpty (by decide)).1,
   (claim3_halted haltedEmpty (by decide)).2 7⟩

/-- C4: `run` is equivalent to iterating `step` until it first returns
`false` and returning a copy of the tape: the second, final-state-guarded
loop performs zero iterations with any fuel, and the machine is returned
exactly as it was when `step` first returned `false`. -/
theorem claim4_run_equiv (fuel : Nat) (m : TuringMachine M T) :
    m.run fuel =
      (TuringMachine.runLoop1 fuel m).map (fun p => (p.1, p.2.tape, p.2)) ∧
    (∀ n m1, TuringMachine.runLoop1 fuel m = some (n, m1) →
      ∀ f2, m1.runLoop2 f2 = some m1) :=
  ⟨run_eq_loop1 fuel m,
   fun _ m1 h f2 => runLoop2_of_final (runLoop1_final fuel m _ m1 h) f2⟩

/-- Witness for C4, on the concrete scenario with fuel 10. -/
theorem claim4_run_equiv_witness :
    bbMachine.run 10 =
      (TuringMachine.runLoop1 10 bbMachine).map
        (fun p => (p.1, p.2.tape, p.2)) ∧
    bbM3.runLoop2 0 = some bbM3 :=
  ⟨(claim4_run_equiv 10 bbMachine).1,
   (claim4_run_equiv 10 bbMachine).2 3 bbM3 rfl 0⟩

/-- C5: starting from any machine whose head is in bounds, any number of
`step` calls never panics and leaves the head inside `[0, tape length)`,
so no tape read is ever out of bounds. -/
theorem claim5_head_in_bounds (m : TuringMachine M T)
    (h : m.head < m.tape.length) (n : Nat) :
    ∃ m', m.stepIter n = some m' ∧ m'.head < m'.tape.length :=
  stepIter_inbounds n m h

/-- Witness for C5, on the concrete scenario machine for five steps. -/
theorem claim5_head_in_bounds_witness :
    ∃ m', bbMachine.stepIter 5 = some m' ∧ m'.head < m'.tape.length :=
  claim5_head_in_bounds bbMachine (by decide) 5

/-- C6: the concrete scenario machine (states A, B, H; symbols 0, 1; blank
0; initial state A; final set with only H; initial tape with one cell 0)
follows the expected trace: step 1 gives tape 1,0 with head 1 in state B;
step 2 gives tape 1,1 with head 0 in state A; step 3 extends left giving
tape 0,1,1 with head 0 in state H; `run` returns 0,1,1 after exactly these
three transitions. -/
theorem claim6_concrete_scenario :
    TuringMachine.new [BBState.A, BBState.B, BBState.H] [0, 1] 0 BBState.A
        [BBState.H] bbTransition [0] = some bbMachine ∧
    bbMachine.step = some (true, bbM1) ∧
    bbM1.tape = [1, 0] ∧ bbM1.head = 1 ∧ bbM1.current_state = BBState.B ∧
    bbM1.step = some (true, bbM2) ∧
    bbM2.tape = [1, 1] ∧ bbM2.head = 0 ∧ bbM2.current_state = BBState.A ∧
    bbM2.step = some (true, bbM3) ∧
    bbM3.tape = [0, 1, 1] ∧ bbM3.head = 0 ∧ bbM3.current_state = BBState.H ∧
    bbM3.step = some (false, bbM3) ∧
    bbMachine.run 10 = some (3, [0, 1, 1], bbM3) :=
  ⟨rfl, rfl, rfl, rfl, rfl, rfl, rfl, rfl, rfl, rfl, rfl, rfl, rfl, rfl,
   rfl⟩

/-- C7: a cell created by a left extension (left shift 1) holds the blank
symbol at index 0, and a cell created by a right extension (the tape grew
without a left shift) holds the blank symbol at the old tape length; either
cell keeps the blank through any further steps whose head never lands on
the cell's shifted index. -/
theorem claim7_blank_fill {m m1 : TuringMachine M T} {b : Bool}
    (h : m.step = some (b, m1)) :
    (m.stepShift = 1 →
      m1.tape[0]? = some m.blank_symbol ∧
      ∀ n m2 s, m1.stepIterS n = some (m2, s) →
        (∀ k, k < n → ∀ mk sk, m1.stepIterS k = some (mk, sk) →
          mk.head ≠ 0 + sk) →
        m2.tape[0 + s]? = some m.blank_symbol) ∧
    (m.stepShift = 0 → m1.tape.length = m.tape.length + 1 →
      m1.tape[m.tape.length]? = some m.blank_symbol ∧
      ∀ n m2 s, m1.stepIterS n = some (m2, s) →
        (∀ k, k < n → ∀ mk sk, m1.stepIterS k = some (mk, sk) →
          mk.head ≠ m.tape.length + sk) →
        m2.tape[m.tape.length + s]? = some m.blank_symbol) := by
  constructor
  · intro hsh
    have hcreate : m1.tape[0]? = some m.blank_symbol := by
      rcases step_cases h with ⟨_, rfl, hf⟩ |
        ⟨_, hf, hlt, sym, w, mv, t, hg, htr, hc⟩
      · rw [stepShift_of_final hf] at hsh
        cases hsh
      · have hs := stepShift_eq hf hg htr
        rcases hc with ⟨hmv, h0, rfl⟩ | ⟨hmv, h0, rfl⟩ | ⟨hmv, h0, rfl⟩ |
          ⟨hmv, h0, rfl⟩ <;> subst hmv
        · simp
        · simp [h0.ne'] at hs
          omega
        · simp at hs
          omega
        · simp at hs
          omega
    exact ⟨hcreate, fun n m2 s hrun havoid =>
      cell_persists n m1 m2 s 0 m.blank_symbol hrun hcreate havoid⟩
  · intro hsh hgrow
    have hcreate : m1.tape[m.tape.length]? = some m.blank_symbol := by
      rcases step_cases h with ⟨_, rfl, hf⟩ |
        ⟨_, hf, hlt, sym, w, mv, t, hg, htr, hc⟩
      · omega
      · have hs := stepShift_eq hf hg htr
        rcases hc with ⟨hmv, h0, rfl⟩ | ⟨hmv, h0, rfl⟩ | ⟨hmv, h0, rfl⟩ |
          ⟨hmv, h0, rfl⟩ <;> subst hmv
        · simp [h0] at hs
          omega
        · simp only [List.length_set] at hgrow
          omega
        · have hlenset : (m.tape.set m.head w).length = m.tape.length := by
            simp
          show (m.tape.set m.head w ++ [m.blank_symbol])[m.tape.length]? =
            some m.blank_symbol
          rw [← hlenset, List.getElem?_concat_length]
        · simp only [List.length_set] at hgrow
          omega
    exact ⟨hcreate, fun n m2 s hrun havoid =>
      cell_persists n m1 m2 s m.tape.length m.blank_symbol hrun hcreate
        havoid⟩

/-- Witness for C7, at the left extension of step 3 of the concrete
scenario, with zero further steps. -/
theorem claim7_blank_fill_witness :
    bbM3.tape[0]? = some bbM2.blank_symbol ∧
    bbM3.tape[0 + 0]? = some bbM2.blank_symbol := by
  have hstep : bbM2.step = some (true, bbM3) := rfl
  have h := (claim7_blank_fill hstep).1 rfl
  refine ⟨h.1, h.2 0 bbM3 0 rfl ?_⟩
  intro k hk
  omega

/-- C8: after any sequence of n steps, the tape length is at most the
initial length plus n, and the logical displacement of the head (its index
corrected by the accumulated left shift) from its start is at most n. -/
theorem claim8_growth_bounds (n : Nat) (m m' : TuringMachine M T) (s : Nat)
    (h : m.stepIterS n = some (m', s)) :
    m'.tape.length ≤ m.tape.length + n ∧
    ((m'.head : Int) - s - m.head).natAbs ≤ n :=
  stepIterS_bounds n m m' s h

/-- Witness for C8, on the three transitions of the concrete scenario. -/
theorem claim8_growth_bounds_witness :
    bbM3.tape.length ≤ bbMachine.tape.length + 3 ∧
    ((bbM3.head : Int) - 1 - bbMachine.head).natAbs ≤ 3 :=
  claim8_growth_bounds 3 bbMachine bbM3 1 rfl

/-- C9: `run` is deterministic: two terminating executions on the same
machine return the same step count, tape contents, and final machine,
independently of the fuel allowed. -/
theorem claim9_run_deterministic (f1 f2 : Nat) (m : TuringMachine M T)
    (r1 r2 : Nat × List M × TuringMachine M T)
    (h1 : m.run f1 = some r1) (h2 : m.run f2 = some r2) : r1 = r2 := by
  rw [run_eq_loop1] at h1 h2
  rcases ha : TuringMachine.runLoop1 f1 m with _ | p1
  · rw [ha] at h1
    cases h1
  · rcases hb : TuringMachine.runLoop1 f2 m with _ | p2
    · rw [hb] at h2
      cases h2
    · have hp : p1 = p2 := by
        rcases Nat.le_total f1 f2 with hle | hle
        · have hmono := runLoop1_mono f1 f2 m p1 ha hle
          exact Option.some.inj (hmono.symm.trans hb)
        · have hmono := runLoop1_mono f2 f1 m p2 hb hle
          exact (Option.some.inj (hmono.symm.trans ha)).symm
      rw [ha] at h1
      rw [hb] at h2
      have e1 : r1 = (p1.1, p1.2.tape, p1.2) := by simpa using h1.symm
      have e2 : r2 = (p2.1, p2.2.tape, p2.2) := by simpa using h2.symm
      rw [e1, e2, hp]

/-- Witness for C9, running the concrete scenario with fuels 10 and 20. -/
theorem claim9_run_deterministic_witness :
    ((3 : Nat), ([0, 1, 1] : List Nat), bbM3) =
      ((3 : Nat), ([0, 1, 1] : List Nat), bbM3) :=
  claim9_run_deterministic 10 20 bbMachine (3, [0, 1, 1], bbM3)
    (3, [0, 1, 1], bbM3) rfl rfl

/-- C10: construction performs no validation of the initial tape, so an
empty initial tape is accepted; on the resulting machine, when the initial
state is not final, the first `step` hits the out-of-bounds read of the
empty tape at head 0 (modelled as `none`, the panic) instead of extending
the tape. -/
theorem claim10_empty_tape [DecidableEq M] (Q : List T) (G : List M) (b : M)
    (q0 : T) (F : List T) (d : M → T → M × Movement × T)
    (h1 : Q ≠ []) (h2 : q0 ∈ Q) (h3 : G ≠ []) (h4 : b ∈ G) (h5 : q0 ∉ F) :
    ∃ m : TuringMachine M T, TuringMachine.new Q G b q0 F d [] = some m ∧
      m.tape = [] ∧ m.head = 0 ∧ m.step = none := by
  refine ⟨{ state_set := Q, symbol_set := G, blank_symbol := b,
            transition := d, initial_state := q0, final_state_set := F,
            head := 0, tape := [], current_state := q0 }, ?_, rfl, rfl, ?_⟩
  · rw [TuringMachine.new, if_neg (by simpa [List.isEmpty_iff] using h1),
      if_neg (by simpa using h2),
      if_neg (by simpa [List.isEmpty_iff] using h3),
      if_neg (by simpa using h4)]
  · rw [TuringMachine.step, if_neg h5]
    rfl

/-- Witness for C10, on the scenario description with an empty tape. -/
theorem claim10_empty_tape_witness :
    ∃ m : TuringMachine Nat BBState,
      TuringMachine.new [BBState.A, BBState.B, BBState.H] [0, 1] 0 BBState.A
        [BBState.H] bbTransition [] = some m ∧
      m.tape = [] ∧ m.head = 0 ∧ m.step = none :=
  claim10_empty_tape [BBState.A, BBState.B, BBState.H] [0, 1] 0 BBState.A
    [BBState.H] bbTransition (by decide) (by decide) (by decide) (by decide)
    (by decide)

end TuringMachine

end TMSpec
